import Mathlib

/-!
A shallow embedding of `src/CachingSystem.cpp`, an in-memory multilevel
key-value cache with pluggable eviction policies.

Modelling conventions:
* `std::unordered_map` becomes an association list with functional
  lookup/insert/erase; well-formed states bind each key at most once, and
  iteration order of the C++ container is unspecified, so the list order
  stands in for one admissible iteration order.
* `std::list<string> accessOrder` becomes `List Key`; the auxiliary C++
  `cacheMap` from keys to list iterators is a derived index into that list
  and carries no extra information, so it is not represented separately.
* C++ `int` counters become `Nat`.  Signed overflow is undefined behaviour
  in the source, so every statement about the frequency policy stays below
  `INT_MAX`, where `Nat` and `int` agree.
* Undefined behaviour (dereferencing a null `evictionPolicy`, `front()` on
  an empty `std::list`, `cacheLevels[0]` on an empty vector) is modelled by
  an `Option` result, `none` marking the undefined case.  A returned
  `some ("", _)` from `get` is the code's ordinary empty-string miss
  sentinel, not undefined behaviour.
* Mutexes only serialize calls and are irrelevant to the sequential
  semantics; they are dropped.
-/

abbrev Key := String

abbrev Value := String

/-- Lookup in an association list (`std::unordered_map::find`). -/
def lookupA {β : Type} (m : List (Key × β)) (k : Key) : Option β :=
  match m with
  | [] => none
  | p :: rest => if p.1 = k then some p.2 else lookupA rest k

/-- Insert-or-assign, the effect of `map[key] = value`. -/
def setA {β : Type} (m : List (Key × β)) (k : Key) (v : β) : List (Key × β) :=
  if (lookupA m k).isSome then m.map (fun p => if p.1 = k then (k, v) else p)
  else m ++ [(k, v)]

/-- Erase every binding of `k` (`map.erase(key)`; well-formed states bind a
key once, so at most one binding is removed there). -/
def eraseA {β : Type} (m : List (Key × β)) (k : Key) : List (Key × β) :=
  m.filter (fun p => p.1 != k)

/-- The keys bound by an association list. -/
def keysA {β : Type} (m : List (Key × β)) : List Key :=
  m.map Prod.fst

/-- Recency (LRU) policy state: keys in access order, least recent first
(`list<string> accessOrder` in `LRUEvictionPolicy`). -/
structure LRUEvictionPolicy where
  accessOrder : List Key
deriving DecidableEq, Repr

/-- The C++ body erases the node `cacheMap[key]` when the key is tracked and
then pushes `key` to the back; `List.erase` removes the first occurrence and
is the identity on untracked keys, which coincides on the duplicate-free
states the C++ maintains. -/
def LRUEvictionPolicy.access (p : LRUEvictionPolicy) (key : Key) : LRUEvictionPolicy :=
  ⟨p.accessOrder.erase key ++ [key]⟩

/-- The C++ body takes `accessOrder.front()`, pops it and erases its
`cacheMap` entry; `front()` on an empty list is undefined behaviour,
modelled as `none`. -/
def LRUEvictionPolicy.evict (p : LRUEvictionPolicy) : Option (Key × LRUEvictionPolicy) :=
  match p.accessOrder with
  | [] => none
  | leastRecent :: rest => some (leastRecent, ⟨rest⟩)

/-- Frequency (LFU) policy state: per-key access count (`frequencyMap`),
per-key sequence number of the most recent access (`keyOrder`) and the
global counter (`currentTime`). -/
structure LFUEvictionPolicy where
  frequencyMap : List (Key × Nat)
  keyOrder : List (Key × Nat)
  currentTime : Nat
deriving DecidableEq, Repr

/-- The C++ `INT_MAX` used to seed the victim scan. -/
def INT_MAX : Nat := 2147483647

/-- The body is `frequencyMap[key]++; keyOrder[key] = currentTime++;` —
`operator[]` default-constructs a `0` count for a new key, so a first
access stores count `1`. -/
def LFUEvictionPolicy.access (p : LFUEvictionPolicy) (key : Key) : LFUEvictionPolicy :=
  ⟨setA p.frequencyMap key ((lookupA p.frequencyMap key).getD 0 + 1),
   setA p.keyOrder key p.currentTime,
   p.currentTime + 1⟩

/-- One iteration of the victim scan in `LFUEvictionPolicy::evict`.  The
accumulator carries the running `keyOrder` (the read `keyOrder[key]` is
`operator[]`, which default-inserts `0` for a key it has not seen) together
with the current `lfuKey`, `minFreq`, `minOrder`. -/
def lfuScanStep (acc : List (Key × Nat) × Key × Nat × Nat) (kv : Key × Nat) :
    List (Key × Nat) × Key × Nat × Nat :=
  let order := (lookupA acc.1 kv.1).getD 0
  let ko := if (lookupA acc.1 kv.1).isSome then acc.1 else acc.1 ++ [(kv.1, 0)]
  if kv.2 < acc.2.2.1 ∨ (kv.2 = acc.2.2.1 ∧ order < acc.2.2.2) then
    (ko, kv.1, kv.2, order)
  else (ko, acc.2)

/-- The C++ body scans `frequencyMap`, keeping the key with the smallest
count and breaking count ties by the smallest sequence number, starting
from `lfuKey = ""`, `minFreq = minOrder = INT_MAX`; it then erases the
chosen key from both maps.  On an empty map the scan leaves `lfuKey = ""`
and the erases are no-ops, which is defined behaviour, so no `Option` is
needed. -/
def LFUEvictionPolicy.evict (p : LFUEvictionPolicy) : Key × LFUEvictionPolicy :=
  let r := p.frequencyMap.foldl lfuScanStep (p.keyOrder, "", INT_MAX, INT_MAX)
  (r.2.1, ⟨eraseA p.frequencyMap r.2.1, eraseA r.1 r.2.1, p.currentTime⟩)

/-- The two concrete `EvictionPolicy` subclasses, as a tagged sum. -/
inductive PolicyState where
  | lru : LRUEvictionPolicy → PolicyState
  | lfu : LFUEvictionPolicy → PolicyState
deriving DecidableEq, Repr

def PolicyState.access : PolicyState → Key → PolicyState
  | .lru p, k => .lru (p.access k)
  | .lfu p, k => .lfu (p.access k)

def PolicyState.evict : PolicyState → Option (Key × PolicyState)
  | .lru p => (p.evict).map (fun r => (r.1, .lru r.2))
  | .lfu p => some ((p.evict).1, .lfu (p.evict).2)

/-- The key set a policy currently tracks: the access-order list for LRU,
the domain of `frequencyMap` for LFU. -/
def PolicyState.tracked : PolicyState → List Key
  | .lru p => p.accessOrder
  | .lfu p => keysA p.frequencyMap

/-- A cache level: capacity (`size`), the key-value mapping (`data`) and
its eviction policy.  `addCacheLevel` can construct a level whose
`unique_ptr<EvictionPolicy>` is null, hence the `Option`. -/
structure CacheLevel where
  size : Nat
  data : List (Key × Value)
  evictionPolicy : Option PolicyState
deriving DecidableEq, Repr

/-- `CacheLevel::get`: on a present key, record the access with the policy
(a null policy is a null dereference, `none`) and return the value; on an
absent key return the empty-string sentinel. -/
def CacheLevel.get (lvl : CacheLevel) (key : Key) : Option (Value × CacheLevel) :=
  match lookupA lvl.data key with
  | some v =>
      match lvl.evictionPolicy with
      | some pol => some (v, { lvl with evictionPolicy := some (pol.access key) })
      | none => none
  | none => some ("", lvl)

/-- `CacheLevel::put`: when `data.size() >= size`, evict a victim chosen by
the policy and erase it from `data`; then insert or overwrite the binding
and record the access.  The policy is dereferenced unconditionally, so a
null policy is `none`; so is an LRU eviction from an empty access order. -/
def CacheLevel.put (lvl : CacheLevel) (key : Key) (value : Value) : Option CacheLevel :=
  match lvl.evictionPolicy with
  | none => none
  | some pol =>
      if lvl.data.length ≥ lvl.size then
        match pol.evict with
        | none => none
        | some r =>
            some ⟨lvl.size, setA (eraseA lvl.data r.1) key value,
                  some (r.2.access key)⟩
      else
        some ⟨lvl.size, setA lvl.data key value, some (pol.access key)⟩

/-- `CacheLevel::contains`: membership test with no policy side effect. -/
def CacheLevel.contains (lvl : CacheLevel) (key : Key) : Bool :=
  (lookupA lvl.data key).isSome

/-- `CacheLevel::update`: direct overwrite of the mapping, no capacity
check, no policy interaction. -/
def CacheLevel.update (lvl : CacheLevel) (key : Key) (value : Value) : CacheLevel :=
  { lvl with data := setA lvl.data key value }

/-- The ordered chain of levels (`vector<unique_ptr<CacheLevel>>`). -/
structure MultilevelCacheSystem where
  cacheLevels : List CacheLevel
deriving DecidableEq, Repr

/-- `MultilevelCacheSystem::addCacheLevel`: build the policy from the name —
an unrecognized name leaves the `unique_ptr` null — and append a level. -/
def MultilevelCacheSystem.addCacheLevel (sys : MultilevelCacheSystem) (size : Nat)
    (evictionPolicy : String) : MultilevelCacheSystem :=
  let policy : Option PolicyState :=
    if evictionPolicy = "LRU" then some (.lru ⟨[]⟩)
    else if evictionPolicy = "LFU" then some (.lfu ⟨[], [], 0⟩)
    else none
  ⟨sys.cacheLevels ++ [⟨size, [], policy⟩]⟩

/-- `MultilevelCacheSystem::removeCacheLevel`: 1-based index, out-of-range
is a no-op. -/
def MultilevelCacheSystem.removeCacheLevel (sys : MultilevelCacheSystem) (level : Int) :
    MultilevelCacheSystem :=
  if 1 ≤ level ∧ level ≤ sys.cacheLevels.length then
    ⟨sys.cacheLevels.eraseIdx (level - 1).toNat⟩
  else sys

/-- The scan loop of `MultilevelCacheSystem::get`, recursing over the chain
in place of the indexed `for`.  Each scanned level is threaded through
because `CacheLevel::get` may touch its policy even on a sentinel result.
A hit is a non-empty returned value; on a hit every previously scanned
level receives the value via `update` (the `for (j = i; j > 0; --j)`
promotion loop), and on a miss it is left as scanned. -/
def getScan (key : Key) : List CacheLevel → Option (Value × List CacheLevel)
  | [] => some ("", [])
  | lvl :: rest =>
      match lvl.get key with
      | none => none
      | some r =>
          if r.1 = "" then
            match getScan key rest with
            | none => none
            | some res =>
                some (res.1,
                  (if res.1 = "" then r.2 else r.2.update key res.1) :: res.2)
          else some (r.1, r.2 :: rest)

/-- `MultilevelCacheSystem::get`. -/
def MultilevelCacheSystem.get (sys : MultilevelCacheSystem) (key : Key) :
    Option (Value × MultilevelCacheSystem) :=
  (getScan key sys.cacheLevels).map (fun r => (r.1, ⟨r.2⟩))

/-- `MultilevelCacheSystem::put`: writes through `cacheLevels[0]` only;
indexing an empty vector is undefined behaviour, `none`. -/
def MultilevelCacheSystem.put (sys : MultilevelCacheSystem) (key : Key) (value : Value) :
    Option MultilevelCacheSystem :=
  match sys.cacheLevels with
  | [] => none
  | lvl :: rest => (lvl.put key value).map (fun lvl' => ⟨lvl' :: rest⟩)

/-! ### Association list lemmas -/

theorem lookupA_append_left {β : Type} {m₁ : List (Key × β)} (m₂ : List (Key × β))
    {k : Key} (h : (lookupA m₁ k).isSome) : lookupA (m₁ ++ m₂) k = lookupA m₁ k := by
  induction m₁ with
  | nil => simp [lookupA] at h
  | cons p rest ih =>
      by_cases hk : p.1 = k
      · simp [lookupA, hk]
      · simp only [lookupA, hk, if_false, List.cons_append] at h ⊢
        exact ih h

theorem lookupA_append_right {β : Type} {m₁ : List (Key × β)} (m₂ : List (Key × β))
    {k : Key} (h : lookupA m₁ k = none) : lookupA (m₁ ++ m₂) k = lookupA m₂ k := by
  induction m₁ with
  | nil => simp
  | cons p rest ih =>
      by_cases hk : p.1 = k
      · simp [lookupA, hk] at h
      · simp only [lookupA, hk, if_false, List.cons_append] at h ⊢
        exact ih h

theorem lookupA_mapset_self {β : Type} {m : List (Key × β)} {k : Key} (v : β)
    (h : (lookupA m k).isSome) :
    lookupA (m.map fun p => if p.1 = k then (k, v) else p) k = some v := by
  induction m with
  | nil => simp [lookupA] at h
  | cons p rest ih =>
      by_cases hk : p.1 = k
      · simp [lookupA, hk]
      · simp only [lookupA, hk, if_false] at h
        simpa [lookupA, hk] using ih h

theorem lookupA_mapset_ne {β : Type} (m : List (Key × β)) {k k' : Key} (v : β)
    (h : k' ≠ k) :
    lookupA (m.map fun p => if p.1 = k then (k, v) else p) k' = lookupA m k' := by
  induction m with
  | nil => simp
  | cons p rest ih =>
      by_cases hk : p.1 = k
      · simp [lookupA, hk, Ne.symm h, ih]
      · by_cases hk' : p.1 = k'
        · simp [lookupA, hk, hk', h]
        · simp [lookupA, hk, hk', ih]

theorem lookupA_setA_self {β : Type} (m : List (Key × β)) (k : Key) (v : β) :
    lookupA (setA m k v) k = some v := by
  unfold setA
  by_cases h : (lookupA m k).isSome
  · simpa [h] using lookupA_mapset_self v h
  · have hnone : lookupA m k = none := by
      cases hx : lookupA m k with
      | none => rfl
      | some w => simp [hx] at h
    simp only [h, if_false, Bool.false_eq_true]
    rw [lookupA_append_right _ hnone]
    simp [lookupA]

theorem lookupA_setA_ne {β : Type} (m : List (Key × β)) {k k' : Key} (v : β)
    (h : k' ≠ k) : lookupA (setA m k v) k' = lookupA m k' := by
  unfold setA
  by_cases hs : (lookupA m k).isSome
  · simpa [hs] using lookupA_mapset_ne m v h
  · simp only [hs, if_false, Bool.false_eq_true]
    cases hx : lookupA m k' with
    | some w => rw [lookupA_append_left _ (by simp [hx]), hx]
    | none => rw [lookupA_append_right _ hx]; simp [lookupA, h, Ne.symm h]

theorem mem_keysA_iff_lookupA {β : Type} {m : List (Key × β)} {k : Key} :
    k ∈ keysA m ↔ (lookupA m k).isSome := by
  induction m with
  | nil => simp [keysA, lookupA]
  | cons p rest ih =>
      by_cases hk : p.1 = k
      · simp [keysA, lookupA, hk]
      · simpa [keysA, lookupA, hk, Ne.symm hk] using ih

theorem keysA_setA_of_isSome {β : Type} {m : List (Key × β)} {k : Key} (v : β)
    (h : (lookupA m k).isSome) : keysA (setA m k v) = keysA m := by
  unfold setA keysA
  simp only [h, if_true, List.map_map]
  refine List.map_congr_left (fun p _ => ?_)
  by_cases hk : p.1 = k
  · simp [hk, Function.comp]
  · simp [hk, Function.comp]

theorem keysA_setA_of_none {β : Type} {m : List (Key × β)} {k : Key} (v : β)
    (h : lookupA m k = none) : keysA (setA m k v) = keysA m ++ [k] := by
  unfold setA keysA
  simp [h]

theorem mem_keysA_setA {β : Type} (m : List (Key × β)) (k : Key) (v : β) (x : Key) :
    x ∈ keysA (setA m k v) ↔ x ∈ keysA m ∨ x = k := by
  by_cases h : (lookupA m k).isSome
  · rw [keysA_setA_of_isSome v h]
    constructor
    · exact Or.inl
    · rintro (hx | rfl)
      · exact hx
      · exact mem_keysA_iff_lookupA.2 h
  · have hnone : lookupA m k = none := Option.not_isSome_iff_eq_none.1 h
    rw [keysA_setA_of_none v hnone]
    simp

theorem length_setA_of_isSome {β : Type} {m : List (Key × β)} {k : Key} (v : β)
    (h : (lookupA m k).isSome) : (setA m k v).length = m.length := by
  unfold setA
  simp [h]

theorem length_setA_of_none {β : Type} {m : List (Key × β)} {k : Key} (v : β)
    (h : lookupA m k = none) : (setA m k v).length = m.length + 1 := by
  unfold setA
  simp [h]

theorem length_setA_le {β : Type} (m : List (Key × β)) (k : Key) (v : β) :
    (setA m k v).length ≤ m.length + 1 := by
  by_cases h : (lookupA m k).isSome
  · rw [length_setA_of_isSome v h]; omega
  · rw [length_setA_of_none v (Option.not_isSome_iff_eq_none.1 h)]

theorem keysA_eraseA {β : Type} (m : List (Key × β)) (k : Key) :
    keysA (eraseA m k) = (keysA m).filter (fun x => x != k) := by
  induction m with
  | nil => simp [keysA, eraseA]
  | cons p rest ih =>
      by_cases hk : p.1 = k
      · simpa [keysA, eraseA, hk] using ih
      · simpa [keysA, eraseA, hk] using ih

theorem mem_keysA_eraseA {β : Type} (m : List (Key × β)) (k x : Key) :
    x ∈ keysA (eraseA m k) ↔ x ∈ keysA m ∧ x ≠ k := by
  rw [keysA_eraseA]
  simp [List.mem_filter]

theorem lookupA_eraseA_self {β : Type} (m : List (Key × β)) (k : Key) :
    lookupA (eraseA m k) k = none := by
  induction m with
  | nil => simp [eraseA, lookupA]
  | cons p rest ih =>
      by_cases hk : p.1 = k
      · simpa [eraseA, lookupA, hk] using ih
      · simpa [eraseA, lookupA, hk] using ih

theorem lookupA_eraseA_ne {β : Type} (m : List (Key × β)) {k k' : Key} (h : k' ≠ k) :
    lookupA (eraseA m k) k' = lookupA m k' := by
  induction m with
  | nil => rfl
  | cons p rest ih =>
      by_cases hk : p.1 = k
      · have hpk' : ¬ p.1 = k' := fun hh => h (by rw [← hh, hk])
        have hdrop : eraseA (p :: rest) k = eraseA rest k := by simp [eraseA, hk]
        rw [hdrop, ih]
        simp [lookupA, hpk']
      · have hkeep : eraseA (p :: rest) k = p :: eraseA rest k := by simp [eraseA, hk]
        rw [hkeep]
        by_cases hk' : p.1 = k'
        · simp [lookupA, hk']
        · simp [lookupA, hk', ih]

theorem nodup_keysA_setA {β : Type} {m : List (Key × β)} (k : Key) (v : β)
    (h : (keysA m).Nodup) : (keysA (setA m k v)).Nodup := by
  by_cases hs : (lookupA m k).isSome
  · rwa [keysA_setA_of_isSome v hs]
  · have hnone : lookupA m k = none := Option.not_isSome_iff_eq_none.1 hs
    rw [keysA_setA_of_none v hnone]
    have hk : k ∉ keysA m := by
      rw [mem_keysA_iff_lookupA, hnone]; simp
    simpa [List.nodup_append] using ⟨h, hk⟩

theorem nodup_keysA_eraseA {β : Type} {m : List (Key × β)} (k : Key)
    (h : (keysA m).Nodup) : (keysA (eraseA m k)).Nodup := by
  rw [keysA_eraseA]
  exact h.filter _

theorem length_eraseA_of_mem {β : Type} {m : List (Key × β)} {k : Key}
    (hnd : (keysA m).Nodup) (hk : k ∈ keysA m) :
    (eraseA m k).length + 1 = m.length := by
  induction m with
  | nil => simp [keysA] at hk
  | cons p rest ih =>
      have hnd' : p.1 ∉ keysA rest ∧ (keysA rest).Nodup := by
        simpa [keysA] using hnd
      have hk' : k = p.1 ∨ k ∈ keysA rest := by
        simpa [keysA] using hk
      by_cases hpk : p.1 = k
      · have hkr : k ∉ keysA rest := hpk ▸ hnd'.1
        have herase : eraseA rest k = rest := by
          unfold eraseA
          rw [List.filter_eq_self]
          intro q hq
          simp only [bne_iff_ne, ne_eq, decide_eq_true_eq]
          intro hqk
          exact hkr (hqk ▸ List.mem_map_of_mem Prod.fst hq)
        have hdrop : eraseA (p :: rest) k = eraseA rest k := by simp [eraseA, hpk]
        rw [hdrop, herase]
        simp
      · have hkeep : eraseA (p :: rest) k = p :: eraseA rest k := by simp [eraseA, hpk]
        rcases hk' with hk' | hk'
        · exact absurd hk'.symm hpk
        · rw [hkeep]
          simp only [List.length_cons]
          have := ih hnd'.2 hk'
          omega

/-! ### Recency (LRU) policy -/

/-- The effect of one `LRUEvictionPolicy::access` on the order list. -/
def lruStep (l : List Key) (k : Key) : List Key :=
  l.erase k ++ [k]

theorem foldl_access_accessOrder (ks : List Key) (p : LRUEvictionPolicy) :
    (ks.foldl LRUEvictionPolicy.access p).accessOrder = ks.foldl lruStep p.accessOrder := by
  induction ks generalizing p with
  | nil => rfl
  | cons k ks ih =>
      simp only [List.foldl_cons]
      exact ih (p.access k)

theorem nodup_lruStep {l : List Key} (k : Key) (h : l.Nodup) : (lruStep l k).Nodup := by
  unfold lruStep
  have h1 : (l.erase k).Nodup := h.erase k
  have h2 : k ∉ l.erase k := h.not_mem_erase
  simp [List.nodup_append, h1, h2]

theorem union_erase_of_mem (l S : List Key) (k : Key) (hk : k ∈ S) :
    l ∪ S = l.erase k ∪ S := by
  induction l with
  | nil => rfl
  | cons a l ih =>
      by_cases hak : a = k
      · subst hak
        rw [List.erase_cons_head, List.cons_union,
          List.insert_of_mem (List.mem_union_right _ hk)]
      · rw [List.erase_cons_tail (by simp [hak]), List.cons_union, List.cons_union, ih]

theorem foldl_lruStep_eq_dedup (ks : List Key) : ∀ l : List Key, l.Nodup →
    ks.foldl lruStep l = (l ++ ks).dedup := by
  induction ks with
  | nil =>
      intro l h
      rw [List.append_nil, h.dedup]
      rfl
  | cons k ks ih =>
      intro l h
      rw [List.foldl_cons, ih _ (nodup_lruStep k h)]
      show ((l.erase k ++ [k]) ++ ks).dedup = (l ++ k :: ks).dedup
      have hky : (l ++ k :: ks) = l ++ ([k] ++ ks) := by simp
      rw [hky, List.append_assoc (l.erase k), List.dedup_append (l.erase k),
        List.dedup_append l]
      exact (union_erase_of_mem l (([k] ++ ks).dedup) k
        (List.mem_dedup.2 (by simp))).symm

theorem dedup_head_decomp : ∀ (hs : List Key) (v : Key) (t : List Key),
    hs.dedup = v :: t →
    ∃ pre post, hs = pre ++ v :: post ∧ v ∉ post ∧ ∀ y ∈ t, y ∈ post := by
  intro hs
  induction hs with
  | nil => intro v t h; simp at h
  | cons a hs ih =>
      intro v t h
      by_cases ha : a ∈ hs
      · rw [List.dedup_cons_of_mem ha] at h
        obtain ⟨pre, post, h1, h2, h3⟩ := ih v t h
        exact ⟨a :: pre, post, by simp [h1], h2, h3⟩
      · rw [List.dedup_cons_of_not_mem ha] at h
        injection h with h1 h2
        subst h1
        refine ⟨[], hs, by simp, ha, ?_⟩
        intro y hy
        rw [← h2] at hy
        exact List.mem_dedup.1 hy

/-- C1: for the recency (LRU) policy, after any sequence of `access` calls
on any well-formed initial state, `evict` removes and returns the key least
recently touched among the tracked keys (every other tracked key is touched
in the combined history after the victim's last touch), and `access k`
removes `k` from its current position and appends it at the most-recent
end, so a repeated access moves `k` to the most-recent position. -/
theorem lru_policy_correct (p₀ : LRUEvictionPolicy) (ks : List Key)
    (hnd : p₀.accessOrder.Nodup) :
    (p₀.accessOrder ++ ks ≠ [] →
      ∃ v p', (ks.foldl LRUEvictionPolicy.access p₀).evict = some (v, p') ∧
        v ∈ p₀.accessOrder ++ ks ∧
        (∃ pre post, p₀.accessOrder ++ ks = pre ++ v :: post ∧ v ∉ post ∧
          ∀ k' ∈ p₀.accessOrder ++ ks, k' ≠ v → k' ∈ post) ∧
        p'.accessOrder = (ks.foldl LRUEvictionPolicy.access p₀).accessOrder.tail ∧
        v ∉ p'.accessOrder) ∧
    (∀ (q : LRUEvictionPolicy) (k : Key),
        ((q.access k).accessOrder.getLast? = some k) ∧
        (q.accessOrder.Nodup →
          (q.access k).accessOrder.Nodup ∧ (q.access k).accessOrder.count k = 1) ∧
        (∀ x, x ∈ (q.access k).accessOrder ↔ x ∈ q.accessOrder ∨ x = k)) := by
  constructor
  · intro hne
    have horder : (ks.foldl LRUEvictionPolicy.access p₀).accessOrder =
        (p₀.accessOrder ++ ks).dedup := by
      rw [foldl_access_accessOrder, foldl_lruStep_eq_dedup ks _ hnd]
    obtain ⟨v, t, hvt⟩ : ∃ v t, (p₀.accessOrder ++ ks).dedup = v :: t := by
      cases hx : (p₀.accessOrder ++ ks).dedup with
      | nil => exact absurd ((List.dedup_eq_nil _).1 hx) hne
      | cons v t => exact ⟨v, t, rfl⟩
    have hevict : (ks.foldl LRUEvictionPolicy.access p₀).evict = some (v, ⟨t⟩) := by
      show (match (ks.foldl LRUEvictionPolicy.access p₀).accessOrder with
            | [] => none
            | leastRecent :: rest =>
                some (leastRecent, (⟨rest⟩ : LRUEvictionPolicy))) = _
      rw [horder, hvt]
    obtain ⟨pre, post, hsplit, hvpost, hpost⟩ := dedup_head_decomp _ v t hvt
    have hndv : (v :: t).Nodup := by
      rw [← hvt]; exact List.nodup_dedup _
    refine ⟨v, ⟨t⟩, hevict, ?_, ⟨pre, post, hsplit, hvpost, ?_⟩, ?_, ?_⟩
    · exact List.mem_dedup.1 (hvt ▸ List.mem_cons_self v t)
    · intro k' hk' hkv
      have : k' ∈ v :: t := hvt ▸ List.mem_dedup.2 hk'
      rcases List.mem_cons.1 this with h | h
      · exact absurd h hkv
      · exact hpost k' h
    · rw [horder, hvt]
      rfl
    · simpa using (List.nodup_cons.1 hndv).1
  · intro q k
    refine ⟨List.getLast?_concat _, fun hq => ⟨nodup_lruStep k hq, ?_⟩, fun x => ?_⟩
    · have hk : k ∉ q.accessOrder.erase k := hq.not_mem_erase
      show (q.accessOrder.erase k ++ [k]).count k = 1
      simp [List.count_append, List.count_eq_zero_of_not_mem hk]
    · show x ∈ q.accessOrder.erase k ++ [k] ↔ x ∈ q.accessOrder ∨ x = k
      constructor
      · intro hx
        rcases List.mem_append.1 hx with hx | hx
        · exact Or.inl (List.erase_subset _ _ hx)
        · simp at hx
          exact Or.inr hx
      · rintro (hx | rfl)
        · by_cases hxk : x = k
          · subst hxk; simp
          · exact List.mem_append.2 (Or.inl ((List.mem_erase_of_ne hxk).2 hx))
        · simp

/-- Witness for C1 at `p₀ = ⟨[]⟩`, `ks = ["A", "B", "A"]`. -/
theorem lru_policy_correct_witness :
    (LRUEvictionPolicy.mk []).accessOrder.Nodup ∧
    (((LRUEvictionPolicy.mk []).accessOrder ++ ["A", "B", "A"] ≠ [] →
      ∃ v p', (["A", "B", "A"].foldl LRUEvictionPolicy.access ⟨[]⟩).evict = some (v, p') ∧
        v ∈ (LRUEvictionPolicy.mk []).accessOrder ++ ["A", "B", "A"] ∧
        (∃ pre post,
          (LRUEvictionPolicy.mk []).accessOrder ++ ["A", "B", "A"] = pre ++ v :: post ∧
          v ∉ post ∧
          ∀ k' ∈ (LRUEvictionPolicy.mk []).accessOrder ++ ["A", "B", "A"], k' ≠ v → k' ∈ post) ∧
        p'.accessOrder =
          (["A", "B", "A"].foldl LRUEvictionPolicy.access ⟨[]⟩).accessOrder.tail ∧
        v ∉ p'.accessOrder) ∧
    (∀ (q : LRUEvictionPolicy) (k : Key),
        ((q.access k).accessOrder.getLast? = some k) ∧
        (q.accessOrder.Nodup →
          (q.access k).accessOrder.Nodup ∧ (q.access k).accessOrder.count k = 1) ∧
        (∀ x, x ∈ (q.access k).accessOrder ↔ x ∈ q.accessOrder ∨ x = k))) :=
  ⟨by decide, lru_policy_correct ⟨[]⟩ ["A", "B", "A"] (by decide)⟩

/-! ### Frequency (LFU) policy -/

/-- The LFU policy state reached by a history of `access` calls from the
freshly constructed policy. -/
def lfuFromHistory (ks : List Key) : LFUEvictionPolicy :=
  ks.foldl LFUEvictionPolicy.access ⟨[], [], 0⟩

/-- The sequence number the victim scan reads for a key (`keyOrder[key]`,
whose `operator[]` yields `0` for an unseen key). -/
def ordOf (ko : List (Key × Nat)) (k : Key) : Nat :=
  (lookupA ko k).getD 0

/-- Strict lexicographic comparison of (count, sequence) pairs, the scan's
`freq < minFreq || (freq == minFreq && order < minOrder)`. -/
def pairLt (a b : Nat × Nat) : Prop :=
  a.1 < b.1 ∨ (a.1 = b.1 ∧ a.2 < b.2)

def pairLe (a b : Nat × Nat) : Prop :=
  a.1 < b.1 ∨ (a.1 = b.1 ∧ a.2 ≤ b.2)

theorem pairLe_refl (a : Nat × Nat) : pairLe a a := by
  unfold pairLe; omega

theorem pairLt_le (a b : Nat × Nat) : pairLt a b → pairLe a b := by
  unfold pairLt pairLe; omega

theorem pairLe_trans (a b c : Nat × Nat) : pairLe a b → pairLe b c → pairLe a c := by
  unfold pairLe; omega

theorem pairLe_of_not_lt (a b : Nat × Nat) : ¬ pairLt a b → pairLe b a := by
  unfold pairLt pairLe; omega

theorem pairLt_of_le_ne (a b : Nat × Nat) : pairLe a b → a ≠ b → pairLt a b := by
  intro hle hne
  unfold pairLe at hle
  unfold pairLt
  rcases Nat.lt_trichotomy a.2 b.2 with h2 | h2 | h2 <;>
    [skip; skip; skip] <;>
    rcases hle with h1 | ⟨h1, h1'⟩ <;>
    first
      | omega
      | (exfalso; exact hne (Prod.ext h1 (by omega)))

/-- The pure victim-selection step, the scan step once `keyOrder` is known
to cover the scanned key (so its `operator[]` read does not mutate). -/
def lfuSel (ko : List (Key × Nat)) (acc : Key × Nat × Nat) (kv : Key × Nat) :
    Key × Nat × Nat :=
  if kv.2 < acc.2.1 ∨ (kv.2 = acc.2.1 ∧ ordOf ko kv.1 < acc.2.2) then
    (kv.1, kv.2, ordOf ko kv.1)
  else acc

theorem foldl_lfuScanStep_fixed (ko : List (Key × Nat)) :
    ∀ (xs : List (Key × Nat)) (acc : Key × Nat × Nat),
    (∀ kv ∈ xs, (lookupA ko kv.1).isSome) →
    xs.foldl lfuScanStep (ko, acc) = (ko, xs.foldl (lfuSel ko) acc) := by
  intro xs
  induction xs with
  | nil => intro acc _; rfl
  | cons kv xs ih =>
      intro acc h
      have hkv : (lookupA ko kv.1).isSome := h kv (by simp)
      have hstep : lfuScanStep (ko, acc) kv = (ko, lfuSel ko acc kv) := by
        unfold lfuScanStep lfuSel ordOf
        by_cases hc : kv.2 < acc.2.1 ∨ (kv.2 = acc.2.1 ∧ (lookupA ko kv.1).getD 0 < acc.2.2)
        · simp [hkv, hc]
        · simp [hkv, hc]
      rw [List.foldl_cons, hstep, List.foldl_cons,
        ih _ (fun kv' hkv' => h kv' (by simp [hkv']))]

theorem foldl_lfuSel_origin (ko : List (Key × Nat)) :
    ∀ (xs : List (Key × Nat)) (acc : Key × Nat × Nat),
    xs.foldl (lfuSel ko) acc = acc ∨
      ∃ kv ∈ xs, xs.foldl (lfuSel ko) acc = (kv.1, kv.2, ordOf ko kv.1) := by
  intro xs
  induction xs with
  | nil => intro acc; exact Or.inl rfl
  | cons kv xs ih =>
      intro acc
      rw [List.foldl_cons]
      rcases ih (lfuSel ko acc kv) with h | ⟨kv', hkv', h⟩
      · rw [h]
        unfold lfuSel
        by_cases hc : kv.2 < acc.2.1 ∨ (kv.2 = acc.2.1 ∧ ordOf ko kv.1 < acc.2.2)
        · exact Or.inr ⟨kv, by simp, by simp [hc]⟩
        · exact Or.inl (by simp [hc])
      · exact Or.inr ⟨kv', by simp [hkv'], h⟩

theorem foldl_lfuSel_min (ko : List (Key × Nat)) :
    ∀ (xs : List (Key × Nat)) (acc : Key × Nat × Nat),
    pairLe (xs.foldl (lfuSel ko) acc).2 acc.2 ∧
    ∀ kv ∈ xs, pairLe (xs.foldl (lfuSel ko) acc).2 (kv.2, ordOf ko kv.1) := by
  intro xs
  induction xs with
  | nil => intro acc; exact ⟨pairLe_refl _, by simp⟩
  | cons kv xs ih =>
      intro acc
      rw [List.foldl_cons]
      obtain ⟨h1, h2⟩ := ih (lfuSel ko acc kv)
      have hsa : pairLe (lfuSel ko acc kv).2 acc.2 := by
        unfold lfuSel
        by_cases hc : kv.2 < acc.2.1 ∨ (kv.2 = acc.2.1 ∧ ordOf ko kv.1 < acc.2.2)
        · simp only [hc, if_true]
          exact pairLt_le _ _ (by unfold pairLt; simpa using hc)
        · simp [hc, pairLe_refl]
      have hskv : pairLe (lfuSel ko acc kv).2 (kv.2, ordOf ko kv.1) := by
        unfold lfuSel
        by_cases hc : kv.2 < acc.2.1 ∨ (kv.2 = acc.2.1 ∧ ordOf ko kv.1 < acc.2.2)
        · simp [hc, pairLe_refl]
        · simp only [hc, if_false]
          exact pairLe_of_not_lt _ _ (by unfold pairLt; simpa using hc)
      refine ⟨pairLe_trans _ _ _ h1 hsa, ?_⟩
      intro kv' hkv'
      rcases List.mem_cons.1 hkv' with rfl | hkv'
      · exact pairLe_trans _ _ _ h1 hskv
      · exact h2 kv' hkv'

theorem foldl_lfuSel_mem (ko : List (Key × Nat)) (xs : List (Key × Nat))
    (hne : xs ≠ []) (hbound : ∀ kv ∈ xs, kv.2 < INT_MAX) :
    ∃ kv ∈ xs, xs.foldl (lfuSel ko) ("", INT_MAX, INT_MAX) = (kv.1, kv.2, ordOf ko kv.1) := by
  rcases foldl_lfuSel_origin ko xs ("", INT_MAX, INT_MAX) with h | h
  · exfalso
    obtain ⟨kv0, hkv0⟩ := List.exists_mem_of_ne_nil xs hne
    have hmin := (foldl_lfuSel_min ko xs ("", INT_MAX, INT_MAX)).2 kv0 hkv0
    rw [h] at hmin
    have hb := hbound kv0 hkv0
    unfold pairLe at hmin
    simp only at hmin
    omega
  · exact h

/-- Invariant of LFU states reachable by `access` calls: duplicate-free map
keys, every counted key has a sequence number, sequence numbers are below
the global counter and pairwise distinct, and counts lie in
`[1, currentTime]`. -/
def LFUEvictionPolicy.Inv (p : LFUEvictionPolicy) : Prop :=
  (keysA p.frequencyMap).Nodup ∧
  (keysA p.keyOrder).Nodup ∧
  (∀ k, (lookupA p.frequencyMap k).isSome → (lookupA p.keyOrder k).isSome) ∧
  (∀ k o, lookupA p.keyOrder k = some o → o < p.currentTime) ∧
  (∀ k₁ k₂ o, lookupA p.keyOrder k₁ = some o → lookupA p.keyOrder k₂ = some o → k₁ = k₂) ∧
  (∀ k f, lookupA p.frequencyMap k = some f → 1 ≤ f ∧ f ≤ p.currentTime)

theorem inv_init : LFUEvictionPolicy.Inv ⟨[], [], 0⟩ := by
  unfold LFUEvictionPolicy.Inv
  refine ⟨by simp [keysA], by simp [keysA], ?_, ?_, ?_, ?_⟩ <;>
    intros <;> simp_all [lookupA]

theorem inv_access {p : LFUEvictionPolicy} (hp : p.Inv) (k : Key) :
    (p.access k).Inv := by
  obtain ⟨h1, h2, h3, h4, h5, h6⟩ := hp
  refine ⟨nodup_keysA_setA _ _ h1, nodup_keysA_setA _ _ h2, ?_, ?_, ?_, ?_⟩
  · intro k' hk'
    by_cases he : k' = k
    · subst he
      simp [LFUEvictionPolicy.access, lookupA_setA_self]
    · rw [show (p.access k).keyOrder = setA p.keyOrder k p.currentTime from rfl,
        lookupA_setA_ne _ _ he]
      rw [show (p.access k).frequencyMap =
        setA p.frequencyMap k ((lookupA p.frequencyMap k).getD 0 + 1) from rfl,
        lookupA_setA_ne _ _ he] at hk'
      exact h3 k' hk'
  · intro k' o hk'
    rw [show (p.access k).keyOrder = setA p.keyOrder k p.currentTime from rfl] at hk'
    by_cases he : k' = k
    · subst he
      rw [lookupA_setA_self] at hk'
      injection hk' with hk'
      subst hk'
      show p.currentTime < p.currentTime + 1
      omega
    · rw [lookupA_setA_ne _ _ he] at hk'
      have := h4 k' o hk'
      show o < p.currentTime + 1
      omega
  · intro k₁ k₂ o hk₁ hk₂
    rw [show (p.access k).keyOrder = setA p.keyOrder k p.currentTime from rfl] at hk₁ hk₂
    by_cases he₁ : k₁ = k <;> by_cases he₂ : k₂ = k
    · rw [he₁, he₂]
    · subst he₁
      rw [lookupA_setA_self] at hk₁
      rw [lookupA_setA_ne _ _ he₂] at hk₂
      injection hk₁ with hk₁
      subst hk₁
      exact absurd (h4 k₂ _ hk₂) (by omega)
    · subst he₂
      rw [lookupA_setA_self] at hk₂
      rw [lookupA_setA_ne _ _ he₁] at hk₁
      injection hk₂ with hk₂
      subst hk₂
      exact absurd (h4 k₁ _ hk₁) (by omega)
    · rw [lookupA_setA_ne _ _ he₁] at hk₁
      rw [lookupA_setA_ne _ _ he₂] at hk₂
      exact h5 k₁ k₂ o hk₁ hk₂
  · intro k' f hk'
    rw [show (p.access k).frequencyMap =
      setA p.frequencyMap k ((lookupA p.frequencyMap k).getD 0 + 1) from rfl] at hk'
    show 1 ≤ f ∧ f ≤ p.currentTime + 1
    by_cases he : k' = k
    · subst he
      rw [lookupA_setA_self] at hk'
      injection hk' with hk'
      subst hk'
      cases hx : lookupA p.frequencyMap k' with
      | none => simp
      | some g =>
          have := h6 k' g hx
          simp [hx]
          omega
    · rw [lookupA_setA_ne _ _ he] at hk'
      have := h6 k' f hk'
      omega

theorem inv_foldl_access (ks : List Key) :
    ∀ (q : LFUEvictionPolicy), q.Inv → (ks.foldl LFUEvictionPolicy.access q).Inv := by
  induction ks with
  | nil => intro q h; exact h
  | cons k ks ih =>
      intro q h
      rw [List.foldl_cons]
      exact ih _ (inv_access h k)

theorem currentTime_foldl_access (ks : List Key) :
    ∀ (q : LFUEvictionPolicy),
    (ks.foldl LFUEvictionPolicy.access q).currentTime = q.currentTime + ks.length := by
  induction ks with
  | nil => intro q; simp
  | cons k ks ih =>
      intro q
      rw [List.foldl_cons, ih]
      show q.currentTime + 1 + ks.length = q.currentTime + (ks.length + 1)
      omega

theorem setA_ne_nil {β : Type} (m : List (Key × β)) (k : Key) (v : β) :
    setA m k v ≠ [] := by
  unfold setA
  by_cases h : (lookupA m k).isSome
  · simp only [h, if_true]
    cases m with
    | nil => simp [lookupA] at h
    | cons p rest => simp
  · simp [h]

theorem freq_foldl_access_ne_nil (ks : List Key) :
    ∀ (q : LFUEvictionPolicy), q.frequencyMap ≠ [] →
    (ks.foldl LFUEvictionPolicy.access q).frequencyMap ≠ [] := by
  induction ks with
  | nil => intro q h; exact h
  | cons k ks ih =>
      intro q _
      rw [List.foldl_cons]
      exact ih _ (setA_ne_nil _ _ _)

theorem mem_of_lookupA {β : Type} {m : List (Key × β)} {k : Key} {v : β}
    (h : lookupA m k = some v) : (k, v) ∈ m := by
  induction m with
  | nil => simp [lookupA] at h
  | cons p rest ih =>
      by_cases hk : p.1 = k
      · rw [show lookupA (p :: rest) k = some p.2 from by simp [lookupA, hk]] at h
        injection h with h
        subst h
        subst hk
        simp
      · rw [show lookupA (p :: rest) k = lookupA rest k from by simp [lookupA, hk]] at h
        exact List.mem_cons_of_mem p (ih h)

theorem lookupA_of_mem_nodup {β : Type} {m : List (Key × β)} {k : Key} {v : β}
    (hnd : (keysA m).Nodup) (h : (k, v) ∈ m) : lookupA m k = some v := by
  induction m with
  | nil => simp at h
  | cons p rest ih =>
      have hnd' : p.1 ∉ keysA rest ∧ (keysA rest).Nodup := by simpa [keysA] using hnd
      rcases List.mem_cons.1 h with rfl | h
      · simp [lookupA]
      · have hpk : ¬ p.1 = k := by
          intro he
          exact hnd'.1 (he ▸ List.mem_map_of_mem Prod.fst h)
        rw [show lookupA (p :: rest) k = lookupA rest k from by simp [lookupA, hpk]]
        exact ih hnd'.2 h

theorem lfu_evict_eq (p : LFUEvictionPolicy)
    (hcover : ∀ kv ∈ p.frequencyMap, (lookupA p.keyOrder kv.1).isSome) :
    p.evict =
      ((p.frequencyMap.foldl (lfuSel p.keyOrder) ("", INT_MAX, INT_MAX)).1,
       ⟨eraseA p.frequencyMap
          (p.frequencyMap.foldl (lfuSel p.keyOrder) ("", INT_MAX, INT_MAX)).1,
        eraseA p.keyOrder
          (p.frequencyMap.foldl (lfuSel p.keyOrder) ("", INT_MAX, INT_MAX)).1,
        p.currentTime⟩) := by
  unfold LFUEvictionPolicy.evict
  rw [foldl_lfuScanStep_fixed _ _ _ hcover]

/-- C2: for the frequency (LFU) policy, `access k` increments the count of
`k` (a new key starts at `0`, so its first access stores `1`) and stamps
`k` with the next value of the global counter, which increments on every
`access` call; and on a state reached by a nonempty history of accesses,
`evict` removes and returns the tracked key with the smallest count,
breaking count ties by the smallest (oldest) sequence number, erasing it
from both the count and the sequence tracking. -/
theorem lfu_policy_correct (ks : List Key) (hlen : ks.length < INT_MAX) :
    (∀ (q : LFUEvictionPolicy) (k : Key),
        lookupA (q.access k).frequencyMap k =
          some ((lookupA q.frequencyMap k).getD 0 + 1) ∧
        lookupA (q.access k).keyOrder k = some q.currentTime ∧
        (q.access k).currentTime = q.currentTime + 1) ∧
    (ks ≠ [] →
      ∃ v p' fv ov,
        (lfuFromHistory ks).evict = (v, p') ∧
        lookupA (lfuFromHistory ks).frequencyMap v = some fv ∧
        lookupA (lfuFromHistory ks).keyOrder v = some ov ∧
        (∀ k f o, lookupA (lfuFromHistory ks).frequencyMap k = some f →
          lookupA (lfuFromHistory ks).keyOrder k = some o → k ≠ v →
          fv < f ∨ (fv = f ∧ ov < o)) ∧
        p'.frequencyMap = eraseA (lfuFromHistory ks).frequencyMap v ∧
        p'.keyOrder = eraseA (lfuFromHistory ks).keyOrder v) := by
  constructor
  · intro q k
    refine ⟨?_, ?_, rfl⟩
    · exact lookupA_setA_self _ _ _
    · exact lookupA_setA_self _ _ _
  · intro hksne
    have hInv : (lfuFromHistory ks).Inv := inv_foldl_access ks _ inv_init
    obtain ⟨h1, h2, h3, h4, h5, h6⟩ := hInv
    have hct : (lfuFromHistory ks).currentTime = ks.length := by
      unfold lfuFromHistory
      rw [currentTime_foldl_access]
      show 0 + ks.length = ks.length
      omega
    have hfne : (lfuFromHistory ks).frequencyMap ≠ [] := by
      cases ks with
      | nil => exact absurd rfl hksne
      | cons k ks' =>
          show ((ks'.foldl LFUEvictionPolicy.access
            (LFUEvictionPolicy.access ⟨[], [], 0⟩ k)).frequencyMap) ≠ []
          exact freq_foldl_access_ne_nil ks' _
            (show setA [] k ((lookupA ([] : List (Key × Nat)) k).getD 0 + 1) ≠ [] from
              setA_ne_nil _ _ _)
    have hcover : ∀ kv ∈ (lfuFromHistory ks).frequencyMap,
        (lookupA (lfuFromHistory ks).keyOrder kv.1).isSome := by
      intro kv hkv
      have : lookupA (lfuFromHistory ks).frequencyMap kv.1 = some kv.2 :=
        lookupA_of_mem_nodup h1 hkv
      exact h3 kv.1 (by simp [this])
    have hbound : ∀ kv ∈ (lfuFromHistory ks).frequencyMap, kv.2 < INT_MAX := by
      intro kv hkv
      have hl : lookupA (lfuFromHistory ks).frequencyMap kv.1 = some kv.2 :=
        lookupA_of_mem_nodup h1 hkv
      have := h6 kv.1 kv.2 hl
      rw [hct] at this
      omega
    obtain ⟨kv, hkvmem, hs⟩ :=
      foldl_lfuSel_mem (lfuFromHistory ks).keyOrder (lfuFromHistory ks).frequencyMap
        hfne hbound
    have hvfreq : lookupA (lfuFromHistory ks).frequencyMap kv.1 = some kv.2 :=
      lookupA_of_mem_nodup h1 hkvmem
    obtain ⟨ov, hov⟩ := Option.isSome_iff_exists.1 (hcover kv hkvmem)
    have hordv : ordOf (lfuFromHistory ks).keyOrder kv.1 = ov := by
      unfold ordOf
      rw [hov]
      rfl
    have hev : (lfuFromHistory ks).evict =
        (kv.1, ⟨eraseA (lfuFromHistory ks).frequencyMap kv.1,
          eraseA (lfuFromHistory ks).keyOrder kv.1,
          (lfuFromHistory ks).currentTime⟩) := by
      rw [lfu_evict_eq _ hcover, hs]
    refine ⟨kv.1, _, kv.2, ov, hev, hvfreq, hov, ?_, rfl, rfl⟩
    · intro k f o hf ho hkne
      have hmin := (foldl_lfuSel_min (lfuFromHistory ks).keyOrder
        (lfuFromHistory ks).frequencyMap ("", INT_MAX, INT_MAX)).2 (k, f)
        (mem_of_lookupA hf)
      rw [hs] at hmin
      have hord : ordOf (lfuFromHistory ks).keyOrder k = o := by
        unfold ordOf
        rw [ho]
        rfl
      rw [hord] at hmin
      have hne : ((kv.2, ov) : Nat × Nat) ≠ (f, o) := by
        intro he
        injection he with he1 he2
        subst he2
        exact hkne (h5 k kv.1 ov ho hov)
      have hlt := pairLt_of_le_ne _ _ (by simpa [hordv] using hmin) hne
      unfold pairLt at hlt
      simpa using hlt

/-- Witness for C2 at `ks = ["A", "B", "A"]`. -/
theorem lfu_policy_correct_witness :
    (["A", "B", "A"] : List Key).length < INT_MAX ∧
    ((∀ (q : LFUEvictionPolicy) (k : Key),
        lookupA (q.access k).frequencyMap k =
          some ((lookupA q.frequencyMap k).getD 0 + 1) ∧
        lookupA (q.access k).keyOrder k = some q.currentTime ∧
        (q.access k).currentTime = q.currentTime + 1) ∧
    ((["A", "B", "A"] : List Key) ≠ [] →
      ∃ v p' fv ov,
        (lfuFromHistory ["A", "B", "A"]).evict = (v, p') ∧
        lookupA (lfuFromHistory ["A", "B", "A"]).frequencyMap v = some fv ∧
        lookupA (lfuFromHistory ["A", "B", "A"]).keyOrder v = some ov ∧
        (∀ k f o, lookupA (lfuFromHistory ["A", "B", "A"]).frequencyMap k = some f →
          lookupA (lfuFromHistory ["A", "B", "A"]).keyOrder k = some o → k ≠ v →
          fv < f ∨ (fv = f ∧ ov < o)) ∧
        p'.frequencyMap = eraseA (lfuFromHistory ["A", "B", "A"]).frequencyMap v ∧
        p'.keyOrder = eraseA (lfuFromHistory ["A", "B", "A"]).keyOrder v)) :=
  ⟨by decide, lfu_policy_correct ["A", "B", "A"] (by decide)⟩

/-! ### Policy-level facts shared by the CacheLevel claims -/

/-- Well-formed policy bookkeeping, true in every state the policies build
for themselves: duplicate-free tracking; for LFU, counts below `INT_MAX`
(no `int` overflow) and a sequence entry for every counted key. -/
def PolicyState.Wf : PolicyState → Prop
  | .lru p => p.accessOrder.Nodup
  | .lfu p => (keysA p.frequencyMap).Nodup ∧
      (∀ kv ∈ p.frequencyMap, kv.2 < INT_MAX) ∧
      (∀ kv ∈ p.frequencyMap, (lookupA p.keyOrder kv.1).isSome)

theorem lfu_evict_freq (p : LFUEvictionPolicy) :
    (p.evict).2.frequencyMap = eraseA p.frequencyMap (p.evict).1 := rfl

theorem mem_tracked_access (pol : PolicyState) (k x : Key) :
    x ∈ (pol.access k).tracked ↔ x ∈ pol.tracked ∨ x = k := by
  cases pol with
  | lru p =>
      show x ∈ p.accessOrder.erase k ++ [k] ↔ x ∈ p.accessOrder ∨ x = k
      constructor
      · intro hx
        rcases List.mem_append.1 hx with hx | hx
        · exact Or.inl (List.erase_subset _ _ hx)
        · simp at hx
          exact Or.inr hx
      · rintro (hx | rfl)
        · by_cases hxk : x = k
          · subst hxk; simp
          · exact List.mem_append.2 (Or.inl ((List.mem_erase_of_ne hxk).2 hx))
        · simp
  | lfu p =>
      show x ∈ keysA (setA p.frequencyMap k _) ↔ x ∈ keysA p.frequencyMap ∨ x = k
      exact mem_keysA_setA _ _ _ _

theorem nodup_tracked_access {pol : PolicyState} (k : Key)
    (h : pol.tracked.Nodup) : (pol.access k).tracked.Nodup := by
  cases pol with
  | lru p => exact nodup_lruStep k h
  | lfu p => exact nodup_keysA_setA _ _ h

theorem lru_evict_elim {p : LRUEvictionPolicy} {victim : Key} {pol' : PolicyState}
    (h : PolicyState.evict (.lru p) = some (victim, pol')) :
    ∃ t, p.accessOrder = victim :: t ∧ pol' = .lru ⟨t⟩ := by
  cases hord : p.accessOrder with
  | nil =>
      exfalso
      have : PolicyState.evict (.lru p) = none := by
        show (p.evict).map _ = none
        unfold LRUEvictionPolicy.evict
        rw [hord]
        rfl
      rw [this] at h
      exact Option.noConfusion h
  | cons v t =>
      have hev : PolicyState.evict (.lru p) = some (v, .lru ⟨t⟩) := by
        show (p.evict).map _ = _
        unfold LRUEvictionPolicy.evict
        rw [hord]
        rfl
      rw [hev] at h
      injection h with h
      injection h with h1 h2
      subst h1
      exact ⟨t, rfl, h2.symm⟩

theorem lfu_evict_elim {p : LFUEvictionPolicy} {victim : Key} {pol' : PolicyState}
    (h : PolicyState.evict (.lfu p) = some (victim, pol')) :
    victim = (p.evict).1 ∧ pol' = .lfu (p.evict).2 := by
  have : PolicyState.evict (.lfu p) = some ((p.evict).1, .lfu (p.evict).2) := rfl
  rw [this] at h
  injection h with h
  injection h with h1 h2
  exact ⟨h1.symm, h2.symm⟩

theorem mem_tracked_evict {pol : PolicyState} {victim : Key} {pol' : PolicyState}
    (hnd : pol.tracked.Nodup) (h : pol.evict = some (victim, pol')) :
    ∀ x, x ∈ pol'.tracked ↔ x ∈ pol.tracked ∧ x ≠ victim := by
  intro x
  cases pol with
  | lru p =>
      obtain ⟨t, hord, rfl⟩ := lru_evict_elim h
      show x ∈ t ↔ x ∈ p.accessOrder ∧ x ≠ victim
      rw [hord]
      have hvt : victim ∉ t := by
        have hnd' : p.accessOrder.Nodup := hnd
        rw [hord] at hnd'
        exact (List.nodup_cons.1 hnd').1
      constructor
      · intro hx
        exact ⟨List.mem_cons_of_mem _ hx, fun he => hvt (he ▸ hx)⟩
      · rintro ⟨hx, hne⟩
        rcases List.mem_cons.1 hx with rfl | hx
        · exact absurd rfl hne
        · exact hx
  | lfu p =>
      obtain ⟨rfl, rfl⟩ := lfu_evict_elim h
      show x ∈ keysA ((p.evict).2.frequencyMap) ↔ x ∈ keysA p.frequencyMap ∧ _
      rw [lfu_evict_freq]
      exact mem_keysA_eraseA _ _ _

theorem nodup_tracked_evict {pol : PolicyState} {victim : Key} {pol' : PolicyState}
    (hnd : pol.tracked.Nodup) (h : pol.evict = some (victim, pol')) :
    pol'.tracked.Nodup := by
  cases pol with
  | lru p =>
      obtain ⟨t, hord, rfl⟩ := lru_evict_elim h
      have hnd' : p.accessOrder.Nodup := hnd
      rw [hord] at hnd'
      exact (List.nodup_cons.1 hnd').2
  | lfu p =>
      obtain ⟨rfl, rfl⟩ := lfu_evict_elim h
      show (keysA ((p.evict).2.frequencyMap)).Nodup
      rw [lfu_evict_freq]
      exact nodup_keysA_eraseA _ hnd

theorem evict_mem_tracked {pol : PolicyState} (hwf : pol.Wf) (hne : pol.tracked ≠ []) :
    ∃ victim pol', pol.evict = some (victim, pol') ∧ victim ∈ pol.tracked := by
  cases pol with
  | lru p =>
      cases hord : p.accessOrder with
      | nil => exact absurd (show PolicyState.tracked (.lru p) = [] from hord) hne
      | cons v t =>
          refine ⟨v, .lru ⟨t⟩, ?_, ?_⟩
          · show (p.evict).map _ = _
            unfold LRUEvictionPolicy.evict
            rw [hord]
            rfl
          · show v ∈ p.accessOrder
            rw [hord]
            simp
  | lfu p =>
      obtain ⟨hnd, hbound, hcover⟩ := hwf
      have hfne : p.frequencyMap ≠ [] := by
        intro hfm
        exact hne (show keysA p.frequencyMap = [] from by rw [hfm]; rfl)
      obtain ⟨kv, hkvmem, hs⟩ := foldl_lfuSel_mem p.keyOrder p.frequencyMap hfne hbound
      have hev := lfu_evict_eq p hcover
      refine ⟨(p.evict).1, .lfu (p.evict).2, rfl, ?_⟩
      show (p.evict).1 ∈ keysA p.frequencyMap
      rw [hev, hs]
      exact List.mem_map_of_mem Prod.fst hkvmem

/-! ### CacheLevel operation shapes -/

theorem get_miss_eq (lvl : CacheLevel) (key : Key)
    (hl : lookupA lvl.data key = none) : lvl.get key = some ("", lvl) := by
  unfold CacheLevel.get
  rw [hl]

theorem get_hit_eq (lvl : CacheLevel) (pol : PolicyState) (key : Key) (w : Value)
    (hl : lookupA lvl.data key = some w) (hpol : lvl.evictionPolicy = some pol) :
    lvl.get key = some (w, { lvl with evictionPolicy := some (pol.access key) }) := by
  unfold CacheLevel.get
  rw [hl, hpol]

theorem put_full_eq (lvl : CacheLevel) (pol : PolicyState) (key : Key) (value : Value)
    (victim : Key) (pol' : PolicyState)
    (hpol : lvl.evictionPolicy = some pol)
    (hfull : lvl.data.length ≥ lvl.size)
    (hevict : pol.evict = some (victim, pol')) :
    lvl.put key value =
      some ⟨lvl.size, setA (eraseA lvl.data victim) key value,
            some (pol'.access key)⟩ := by
  unfold CacheLevel.put
  rw [hpol]
  show (if lvl.data.length ≥ lvl.size then _ else _) = _
  rw [if_pos hfull, hevict]

theorem put_full_none (lvl : CacheLevel) (pol : PolicyState) (key : Key) (value : Value)
    (hpol : lvl.evictionPolicy = some pol)
    (hfull : lvl.data.length ≥ lvl.size)
    (hevict : pol.evict = none) :
    lvl.put key value = none := by
  unfold CacheLevel.put
  rw [hpol]
  show (if lvl.data.length ≥ lvl.size then _ else _) = _
  rw [if_pos hfull, hevict]

theorem put_notfull_eq (lvl : CacheLevel) (pol : PolicyState) (key : Key) (value : Value)
    (hpol : lvl.evictionPolicy = some pol)
    (hnotfull : ¬ lvl.data.length ≥ lvl.size) :
    lvl.put key value =
      some ⟨lvl.size, setA lvl.data key value, some (pol.access key)⟩ := by
  unfold CacheLevel.put
  rw [hpol]
  show (if lvl.data.length ≥ lvl.size then _ else _) = _
  rw [if_neg hnotfull]

/-- C6: on a level whose mapping size is at or above capacity, `put` asks
the policy for a victim and erases it from the mapping — even when the
written key is already present and the call is a pure overwrite — and then
inserts/overwrites the binding and records the access with the policy
unconditionally. -/
theorem put_at_capacity_evicts (lvl : CacheLevel) (pol : PolicyState)
    (key : Key) (value : Value) (victim : Key) (pol' : PolicyState)
    (hpol : lvl.evictionPolicy = some pol)
    (hfull : lvl.data.length ≥ lvl.size)
    (hevict : pol.evict = some (victim, pol')) :
    lvl.put key value =
      some ⟨lvl.size, setA (eraseA lvl.data victim) key value,
            some (pol'.access key)⟩ ∧
    lookupA (setA (eraseA lvl.data victim) key value) key = some value ∧
    (victim ≠ key → lookupA (setA (eraseA lvl.data victim) key value) victim = none) := by
  refine ⟨put_full_eq lvl pol key value victim pol' hpol hfull hevict,
    lookupA_setA_self _ _ _, ?_⟩
  intro hne
  rw [lookupA_setA_ne _ _ hne, lookupA_eraseA_self]

/-- Witness for C6: a full LRU level, overwriting the already-present key
`"B"` still evicts the unrelated key `"A"`. -/
theorem put_at_capacity_evicts_witness :
    (CacheLevel.mk 2 [("A", "1"), ("B", "2")]
        (some (.lru ⟨["A", "B"]⟩))).evictionPolicy = some (.lru ⟨["A", "B"]⟩) ∧
    (CacheLevel.mk 2 [("A", "1"), ("B", "2")]
        (some (.lru ⟨["A", "B"]⟩))).data.length ≥
      (CacheLevel.mk 2 [("A", "1"), ("B", "2")] (some (.lru ⟨["A", "B"]⟩))).size ∧
    PolicyState.evict (.lru ⟨["A", "B"]⟩) = some ("A", .lru ⟨["B"]⟩) ∧
    ((CacheLevel.mk 2 [("A", "1"), ("B", "2")] (some (.lru ⟨["A", "B"]⟩))).put "B" "9" =
      some ⟨(CacheLevel.mk 2 [("A", "1"), ("B", "2")] (some (.lru ⟨["A", "B"]⟩))).size,
            setA (eraseA (CacheLevel.mk 2 [("A", "1"), ("B", "2")]
              (some (.lru ⟨["A", "B"]⟩))).data "A") "B" "9",
            some ((PolicyState.lru ⟨["B"]⟩).access "B")⟩ ∧
     lookupA (setA (eraseA (CacheLevel.mk 2 [("A", "1"), ("B", "2")]
       (some (.lru ⟨["A", "B"]⟩))).data "A") "B" "9") "B" = some "9" ∧
     (("A" : Key) ≠ "B" → lookupA (setA (eraseA (CacheLevel.mk 2 [("A", "1"), ("B", "2")]
       (some (.lru ⟨["A", "B"]⟩))).data "A") "B" "9") "A" = none)) :=
  ⟨rfl, by decide, by decide,
    put_at_capacity_evicts _ (.lru ⟨["A", "B"]⟩) "B" "9" "A" (.lru ⟨["B"]⟩)
      rfl (by decide) (by decide)⟩

/-! ### Capacity after put (C3) -/

/-- C3 counterexample: a level of positive capacity 1 holding one key,
reached from an empty LFU level by a single promotion-path `update`, holds
two keys immediately after the next `put` returns — the claim's bound
fails on a `put` return, not only inside `update` itself.  The `update`
left the mapping within capacity but starved the policy, so `put`'s
eviction removes nothing. -/
theorem put_capacity_counterexample :
    0 < ((CacheLevel.mk 1 [] (some (.lfu ⟨[], [], 0⟩))).update "B" "2").size ∧
    ((CacheLevel.mk 1 [] (some (.lfu ⟨[], [], 0⟩))).update "B" "2").data.length ≤
      ((CacheLevel.mk 1 [] (some (.lfu ⟨[], [], 0⟩))).update "B" "2").size ∧
    (((CacheLevel.mk 1 [] (some (.lfu ⟨[], [], 0⟩))).update "B" "2").put "C" "3").map
      (fun lvl' => (lvl'.data.length, lvl'.size)) = some (2, 1) := by
  decide

/-- C3 (amended): immediately after a `put` returns, a positive-capacity
level's key count is bounded by its capacity, provided the level also
satisfies the §3 bookkeeping invariant — well-formed policy state tracking
exactly the mapping's keys — which only the `update`/promotion path can
break; the counterexample shows the bound fails after `put` once `update`
has broken that invariant. -/
theorem put_respects_capacity (lvl : CacheLevel) (pol : PolicyState)
    (key : Key) (value : Value) (lvl' : CacheLevel)
    (hpol : lvl.evictionPolicy = some pol) (hwf : pol.Wf)
    (hagree : ∀ x, x ∈ keysA lvl.data ↔ x ∈ pol.tracked)
    (hnd : (keysA lvl.data).Nodup)
    (hcap : 0 < lvl.size) (hle : lvl.data.length ≤ lvl.size)
    (hput : lvl.put key value = some lvl') :
    lvl'.data.length ≤ lvl'.size ∧ lvl'.size = lvl.size := by
  by_cases hfull : lvl.data.length ≥ lvl.size
  · have hlen : lvl.data.length = lvl.size := le_antisymm hle hfull
    have hlpos : 0 < lvl.data.length := by omega
    have hdne : lvl.data ≠ [] := by
      intro h
      rw [h] at hlpos
      simp at hlpos
    obtain ⟨q, hq⟩ := List.exists_mem_of_ne_nil _ hdne
    have htr : pol.tracked ≠ [] := by
      intro h
      have := (hagree q.1).1 (List.mem_map_of_mem Prod.fst hq)
      rw [h] at this
      simp at this
    obtain ⟨victim, pol', hevict, hvmem⟩ := evict_mem_tracked hwf htr
    rw [put_full_eq lvl pol key value victim pol' hpol hfull hevict] at hput
    injection hput with hput
    subst hput
    refine ⟨?_, rfl⟩
    show (setA (eraseA lvl.data victim) key value).length ≤ lvl.size
    have hv : victim ∈ keysA lvl.data := (hagree victim).2 hvmem
    have hel : (eraseA lvl.data victim).length + 1 = lvl.data.length :=
      length_eraseA_of_mem hnd hv
    have hsl := length_setA_le (eraseA lvl.data victim) key value
    omega
  · rw [put_notfull_eq lvl pol key value hpol hfull] at hput
    injection hput with hput
    subst hput
    refine ⟨?_, rfl⟩
    show (setA lvl.data key value).length ≤ lvl.size
    have hsl := length_setA_le lvl.data key value
    omega

/-- Witness for C3 (amended): a full capacity-1 LRU level accepts a new key
and stays at one entry. -/
theorem put_respects_capacity_witness :
    (CacheLevel.mk 1 [("A", "1")] (some (.lru ⟨["A"]⟩))).evictionPolicy =
      some (.lru ⟨["A"]⟩) ∧
    PolicyState.Wf (.lru ⟨["A"]⟩) ∧
    (∀ x, x ∈ keysA (CacheLevel.mk 1 [("A", "1")] (some (.lru ⟨["A"]⟩))).data ↔
      x ∈ PolicyState.tracked (.lru ⟨["A"]⟩)) ∧
    (keysA (CacheLevel.mk 1 [("A", "1")] (some (.lru ⟨["A"]⟩))).data).Nodup ∧
    0 < (CacheLevel.mk 1 [("A", "1")] (some (.lru ⟨["A"]⟩))).size ∧
    (CacheLevel.mk 1 [("A", "1")] (some (.lru ⟨["A"]⟩))).data.length ≤
      (CacheLevel.mk 1 [("A", "1")] (some (.lru ⟨["A"]⟩))).size ∧
    (CacheLevel.mk 1 [("A", "1")] (some (.lru ⟨["A"]⟩))).put "B" "2" =
      some ⟨1, [("B", "2")], some (.lru ⟨["B"]⟩)⟩ ∧
    ((CacheLevel.mk 1 [("B", "2")] (some (.lru ⟨["B"]⟩))).data.length ≤
        (CacheLevel.mk 1 [("B", "2")] (some (.lru ⟨["B"]⟩))).size ∧
      (CacheLevel.mk 1 [("B", "2")] (some (.lru ⟨["B"]⟩))).size =
        (CacheLevel.mk 1 [("A", "1")] (some (.lru ⟨["A"]⟩))).size) :=
  ⟨rfl, show (["A"] : List Key).Nodup by decide, fun x => Iff.rfl, by decide,
   by decide, by decide, by decide,
   put_respects_capacity (CacheLevel.mk 1 [("A", "1")] (some (.lru ⟨["A"]⟩)))
     (.lru ⟨["A"]⟩) "B" "2" ⟨1, [("B", "2")], some (.lru ⟨["B"]⟩)⟩
     rfl (show (["A"] : List Key).Nodup by decide) (fun x => Iff.rfl)
     (by decide) (by decide) (by decide) (by decide)⟩

/-! ### Policy/mapping agreement (C7) -/

/-- The §3 level invariant: the mapping's keys are duplicate-free and the
policy tracks exactly those keys (also duplicate-free). -/
def CacheLevel.Inv (lvl : CacheLevel) : Prop :=
  (keysA lvl.data).Nodup ∧
  ∃ pol, lvl.evictionPolicy = some pol ∧ pol.tracked.Nodup ∧
    ∀ x, x ∈ keysA lvl.data ↔ x ∈ pol.tracked

/-- C7 counterexample: from the empty LRU level, one `update` of an absent
key makes the mapping hold `"B"` while the policy still tracks nothing, so
the tracked key set does not equal the mapping's key set after an
operation. -/
theorem level_invariant_counterexample :
    ((CacheLevel.mk 2 [] (some (.lru ⟨[]⟩))).update "B" "2").data = [("B", "2")] ∧
    ((CacheLevel.mk 2 [] (some (.lru ⟨[]⟩))).update "B" "2").evictionPolicy =
      some (.lru ⟨[]⟩) ∧
    "B" ∈ keysA (((CacheLevel.mk 2 [] (some (.lru ⟨[]⟩))).update "B" "2").data) ∧
    "B" ∉ PolicyState.tracked (.lru ⟨[]⟩) := by
  decide

/-- C7 (amended): starting from an empty level the invariant holds, and it
is preserved by every `get`, every `put`, and by `update` of a key already
in the mapping; `update` of an absent key — the promotion path into a level
that does not hold the key — breaks it (see the counterexample). -/
theorem level_invariant_preserved (cap : Nat) (lvl : CacheLevel) (k : Key) (v : Value) :
    (CacheLevel.mk cap [] (some (.lru ⟨[]⟩))).Inv ∧
    (CacheLevel.mk cap [] (some (.lfu ⟨[], [], 0⟩))).Inv ∧
    (lvl.Inv →
      (∀ r lvl', lvl.get k = some (r, lvl') → lvl'.Inv) ∧
      (∀ lvl', lvl.put k v = some lvl' → lvl'.Inv) ∧
      (k ∈ keysA lvl.data → (lvl.update k v).Inv)) := by
  refine ⟨?_, ?_, ?_⟩
  · exact ⟨by simp [keysA], .lru ⟨[]⟩, rfl, by simp [PolicyState.tracked],
      fun x => by simp [keysA, PolicyState.tracked]⟩
  · exact ⟨by simp [keysA], .lfu ⟨[], [], 0⟩, rfl,
      by simp [PolicyState.tracked, keysA],
      fun x => by simp [keysA, PolicyState.tracked]⟩
  · rintro ⟨hnd, pol, hpol, hpnd, hagree⟩
    refine ⟨?_, ?_, ?_⟩
    · intro r lvl' hget
      cases hl : lookupA lvl.data k with
      | none =>
          rw [get_miss_eq lvl k hl] at hget
          injection hget with hget
          injection hget with h1 h2
          rw [← h2]
          exact ⟨hnd, pol, hpol, hpnd, hagree⟩
      | some w =>
          rw [get_hit_eq lvl pol k w hl hpol] at hget
          injection hget with hget
          injection hget with h1 h2
          rw [← h2]
          refine ⟨hnd, pol.access k, rfl, nodup_tracked_access k hpnd, ?_⟩
          intro x
          rw [mem_tracked_access]
          constructor
          · intro hx
            exact Or.inl ((hagree x).1 hx)
          · rintro (hx | rfl)
            · exact (hagree x).2 hx
            · exact mem_keysA_iff_lookupA.2 (by simp [hl])
    · intro lvl' hput
      by_cases hfull : lvl.data.length ≥ lvl.size
      · cases hev : pol.evict with
        | none =>
            rw [put_full_none lvl pol k v hpol hfull hev] at hput
            exact Option.noConfusion hput
        | some r =>
            rw [put_full_eq lvl pol k v r.1 r.2 hpol hfull (by rw [hev])] at hput
            injection hput with hput
            rw [← hput]
            refine ⟨nodup_keysA_setA _ _ (nodup_keysA_eraseA _ hnd),
              (r.2.access k), rfl,
              nodup_tracked_access k (nodup_tracked_evict hpnd (by rw [hev])), ?_⟩
            intro x
            show x ∈ keysA (setA (eraseA lvl.data r.1) k v) ↔ _
            rw [mem_keysA_setA, mem_keysA_eraseA, mem_tracked_access,
              mem_tracked_evict hpnd (show pol.evict = some (r.1, r.2) from by rw [hev])]
            rw [hagree x]
      · rw [put_notfull_eq lvl pol k v hpol hfull] at hput
        injection hput with hput
        rw [← hput]
        refine ⟨nodup_keysA_setA _ _ hnd, pol.access k, rfl,
          nodup_tracked_access k hpnd, ?_⟩
        intro x
        show x ∈ keysA (setA lvl.data k v) ↔ _
        rw [mem_keysA_setA, mem_tracked_access, hagree x]
    · intro hmem
      have hsome : (lookupA lvl.data k).isSome := mem_keysA_iff_lookupA.1 hmem
      refine ⟨?_, pol, hpol, hpnd, ?_⟩
      · show (keysA (setA lvl.data k v)).Nodup
        rw [keysA_setA_of_isSome v hsome]
        exact hnd
      · intro x
        show x ∈ keysA (setA lvl.data k v) ↔ _
        rw [keysA_setA_of_isSome v hsome]
        exact hagree x

/-- Witness for C7 (amended) at a one-key LRU level: the invariant holds
and survives an `update` of the present key. -/
theorem level_invariant_preserved_witness :
    (CacheLevel.mk 2 [("A", "1")] (some (.lru ⟨["A"]⟩))).Inv ∧
    "A" ∈ keysA (CacheLevel.mk 2 [("A", "1")] (some (.lru ⟨["A"]⟩))).data ∧
    ((CacheLevel.mk 2 [("A", "1")] (some (.lru ⟨["A"]⟩))).update "A" "9").Inv :=
  have hinv : (CacheLevel.mk 2 [("A", "1")] (some (.lru ⟨["A"]⟩))).Inv :=
    ⟨by decide, .lru ⟨["A"]⟩, rfl, show (["A"] : List Key).Nodup by decide,
     fun x => Iff.rfl⟩
  ⟨hinv, by decide,
    ((level_invariant_preserved 2 (CacheLevel.mk 2 [("A", "1")]
      (some (.lru ⟨["A"]⟩))) "A" "9").2.2 hinv).2.2 (by decide)⟩

/-! ### Chain-level claims -/

/-- C8: the code does not fail on an unrecognized policy kind — evaluated
at the failing input, `addCacheLevel(2, "BOGUS")` on an empty system
appends a level whose policy pointer is null (the chain grows to one
level), and a later `put` into that level dereferences the null policy
(undefined behaviour, `none` here). -/
theorem addCacheLevel_bogus_appends :
    ((MultilevelCacheSystem.mk []).addCacheLevel 2 "BOGUS").cacheLevels =
      [⟨2, [], none⟩] ∧
    ((MultilevelCacheSystem.mk []).addCacheLevel 2 "BOGUS").cacheLevels.length = 1 ∧
    ((MultilevelCacheSystem.mk []).addCacheLevel 2 "BOGUS").put "A" "1" = none := by
  decide

/-- C10: `MultilevelCacheSystem::put` unconditionally indexes `cacheLevels[0]`:
on a chain with no levels the access is out of bounds and the call has no
defined result (`none`), and on any chain with at least one level the
access is in bounds — `put` is exactly the level-0 `CacheLevel::put`
spliced back in front of the untouched remaining levels. -/
theorem put_requires_nonempty_chain (k : Key) (v : Value) (lvl : CacheLevel)
    (rest : List CacheLevel) :
    (MultilevelCacheSystem.mk []).put k v = none ∧
    (MultilevelCacheSystem.mk (lvl :: rest)).put k v =
      (lvl.put k v).map (fun lvl' => ⟨lvl' :: rest⟩) :=
  ⟨rfl, rfl⟩

/-- C5: the code signals a miss with the same representation as a stored
empty value, both at a single level and through the chain: `get` of the
stored-empty key `"A"` and of the absent key `"B"` return the identical
`""` to the caller.  (The outer `Option` in this embedding marks undefined
behaviour, not a miss: all four calls are defined and all yield the
sentinel.) -/
theorem get_conflates_empty_and_miss :
    ((CacheLevel.mk 2 [("A", "")] (some (.lru ⟨["A"]⟩))).get "A").map Prod.fst =
      some "" ∧
    ((CacheLevel.mk 2 [("A", "")] (some (.lru ⟨["A"]⟩))).get "B").map Prod.fst =
      some "" ∧
    ((MultilevelCacheSystem.mk [⟨2, [("A", "")], some (.lru ⟨["A"]⟩)⟩]).get "A").map
      Prod.fst = some "" ∧
    ((MultilevelCacheSystem.mk [⟨2, [("A", "")], some (.lru ⟨["A"]⟩)⟩]).get "B").map
      Prod.fst = some "" := by
  decide

/-! ### Promotion on get (C4) -/

theorem getScan_promotes (k : Key) (v : Value) (hv : v ≠ "") :
    ∀ (pre : List CacheLevel) (lvl lvl' : CacheLevel) (post : List CacheLevel),
    (∀ l ∈ pre, ∃ lmid, l.get k = some ("", lmid)) →
    lvl.get k = some (v, lvl') →
    ∃ pre', getScan k (pre ++ lvl :: post) = some (v, pre' ++ lvl' :: post) ∧
      List.Forall₂ (fun l nl => ∃ lmid, l.get k = some ("", lmid) ∧
        nl = lmid.update k v) pre pre' ∧
      ∀ nl ∈ pre', lookupA nl.data k = some v := by
  intro pre
  induction pre with
  | nil =>
      intro lvl lvl' post _ hhit
      refine ⟨[], ?_, List.Forall₂.nil, by simp⟩
      show getScan k (lvl :: post) = _
      unfold getScan
      rw [hhit]
      simp [hv]
  | cons l pre ih =>
      intro lvl lvl' post hpre hhit
      obtain ⟨lmid, hl⟩ := hpre l (by simp)
      obtain ⟨pre', hscan, hfa, hlook⟩ := ih lvl lvl' post
        (fun l' hl' => hpre l' (by simp [hl'])) hhit
      refine ⟨lmid.update k v :: pre', ?_,
        List.Forall₂.cons ⟨lmid, hl, rfl⟩ hfa, ?_⟩
      · show getScan k (l :: (pre ++ lvl :: post)) = _
        unfold getScan
        rw [hl]
        show (if ("" : Value) = "" then _ else _) = _
        rw [if_pos rfl, hscan]
        simp [hv]
      · intro nl hnl
        rcases List.mem_cons.1 hnl with rfl | hnl
        · exact lookupA_setA_self _ _ _
        · exact hlook nl hnl

/-- C4: `get` scans the levels from index 0 upward; when every earlier
level answers with the empty sentinel and level `i` holds a non-empty
value for the key, the call returns that value and copies it into every
earlier (scanned) level via `update`, not `put` — afterwards each of those
levels holds the identical value for the key — and `update` leaves the
receiving level's policy untouched and performs no capacity check, so the
promotion bypasses eviction bookkeeping and capacity enforcement. -/
theorem multilevel_get_promotes (pre post : List CacheLevel) (lvl lvl' : CacheLevel)
    (k : Key) (v : Value)
    (hpre : ∀ l ∈ pre, ∃ lmid, l.get k = some ("", lmid))
    (hhit : lvl.get k = some (v, lvl')) (hv : v ≠ "") :
    (∃ pre',
      (MultilevelCacheSystem.mk (pre ++ lvl :: post)).get k =
        some (v, ⟨pre' ++ lvl' :: post⟩) ∧
      List.Forall₂ (fun l nl => ∃ lmid, l.get k = some ("", lmid) ∧
        nl = lmid.update k v) pre pre' ∧
      ∀ nl ∈ pre', lookupA nl.data k = some v) ∧
    (∀ (l : CacheLevel) (k' : Key) (v' : Value),
      (l.update k' v').evictionPolicy = l.evictionPolicy ∧
      (l.update k' v').size = l.size ∧
      (l.update k' v').data = setA l.data k' v') := by
  refine ⟨?_, fun l k' v' => ⟨rfl, rfl, rfl⟩⟩
  obtain ⟨pre', hscan, hfa, hlook⟩ :=
    getScan_promotes k v hv pre lvl lvl' post hpre hhit
  refine ⟨pre', ?_, hfa, hlook⟩
  unfold MultilevelCacheSystem.get
  rw [hscan]
  rfl

/-- Witness for C4: a two-level chain, miss at level 0, hit at level 1. -/
theorem multilevel_get_promotes_witness :
    (∀ l ∈ [CacheLevel.mk 1 [] (some (.lru ⟨[]⟩))],
      ∃ lmid, l.get "A" = some ("", lmid)) ∧
    (CacheLevel.mk 1 [("A", "1")] (some (.lru ⟨["A"]⟩))).get "A" =
      some ("1", CacheLevel.mk 1 [("A", "1")] (some (.lru ⟨["A"]⟩))) ∧
    ("1" : Value) ≠ "" ∧
    ((∃ pre',
      (MultilevelCacheSystem.mk ([CacheLevel.mk 1 [] (some (.lru ⟨[]⟩))] ++
          CacheLevel.mk 1 [("A", "1")] (some (.lru ⟨["A"]⟩)) :: [])).get "A" =
        some ("1", ⟨pre' ++ CacheLevel.mk 1 [("A", "1")] (some (.lru ⟨["A"]⟩)) :: []⟩) ∧
      List.Forall₂ (fun l nl => ∃ lmid, l.get "A" = some ("", lmid) ∧
        nl = lmid.update "A" "1") [CacheLevel.mk 1 [] (some (.lru ⟨[]⟩))] pre' ∧
      ∀ nl ∈ pre', lookupA nl.data "A" = some "1") ∧
    (∀ (l : CacheLevel) (k' : Key) (v' : Value),
      (l.update k' v').evictionPolicy = l.evictionPolicy ∧
      (l.update k' v').size = l.size ∧
      (l.update k' v').data = setA l.data k' v')) :=
  have hpre : ∀ l ∈ [CacheLevel.mk 1 [] (some (.lru ⟨[]⟩))],
      ∃ lmid, l.get "A" = some ("", lmid) := by
    intro l hl
    rw [List.mem_singleton] at hl
    subst hl
    exact ⟨CacheLevel.mk 1 [] (some (.lru ⟨[]⟩)), by decide⟩
  ⟨hpre, by decide, by decide,
    multilevel_get_promotes [CacheLevel.mk 1 [] (some (.lru ⟨[]⟩))] []
      (CacheLevel.mk 1 [("A", "1")] (some (.lru ⟨["A"]⟩)))
      (CacheLevel.mk 1 [("A", "1")] (some (.lru ⟨["A"]⟩))) "A" "1"
      hpre (by decide) (by decide)⟩

/-! ### Put/get round trip (C9) -/

theorem put_result_facts (lvl : CacheLevel) (k : Key) (v : Value) (lvl₀ : CacheLevel)
    (h : lvl.put k v = some lvl₀) :
    lookupA lvl₀.data k = some v ∧ ∃ polx, lvl₀.evictionPolicy = some polx := by
  cases hpol : lvl.evictionPolicy with
  | none =>
      unfold CacheLevel.put at h
      rw [hpol] at h
      exact Option.noConfusion h
  | some pol =>
      by_cases hfull : lvl.data.length ≥ lvl.size
      · cases hev : pol.evict with
        | none =>
            rw [put_full_none _ _ _ _ hpol hfull hev] at h
            exact Option.noConfusion h
        | some r =>
            rw [put_full_eq _ _ _ _ r.1 r.2 hpol hfull (by rw [hev])] at h
            injection h with h
            rw [← h]
            exact ⟨lookupA_setA_self _ _ _, _, rfl⟩
      · rw [put_notfull_eq _ _ _ _ hpol hfull] at h
        injection h with h
        rw [← h]
        exact ⟨lookupA_setA_self _ _ _, _, rfl⟩

/-- C9 counterexample: for `v = ""` the claim fails.  On a chain whose
deeper level holds a non-empty value `"x"` for `"A"`, `put("A", "")`
immediately followed by `get("A")` returns `"x"` ≠ `""`: the stored empty
value at level 0 is taken for a miss and the scan falls through to the
deeper level (no eviction of `"A"` intervenes — level 0 keeps it). -/
theorem put_get_roundtrip_counterexample :
    ((MultilevelCacheSystem.mk [⟨1, [], some (.lru ⟨[]⟩)⟩,
        ⟨1, [("A", "x")], some (.lru ⟨["A"]⟩)⟩]).put "A" "").bind
      (fun sys' => (sys'.get "A").map Prod.fst) = some "x" ∧
    ((((MultilevelCacheSystem.mk [⟨1, [], some (.lru ⟨[]⟩)⟩,
        ⟨1, [("A", "x")], some (.lru ⟨["A"]⟩)⟩]).put "A" "").bind
      (fun sys' => sys'.cacheLevels.head?)).map
        (fun l => lookupA l.data "A") = some (some "")) ∧
    ("x" : Value) ≠ "" := by
  decide

/-- C9 (amended): for every key and every non-empty value, on any chain
with at least one level, a defined `put(k, v)` immediately followed by
`get(k)` on the result returns `v` (no operation intervenes, so no
eviction of `k` can).  For `v = ""` the code can return a different value
(see the counterexample) because the empty string doubles as the miss
sentinel. -/
theorem put_get_roundtrip (sys : MultilevelCacheSystem) (lvl : CacheLevel)
    (rest : List CacheLevel) (k : Key) (v : Value) (sys' : MultilevelCacheSystem)
    (hchain : sys.cacheLevels = lvl :: rest)
    (hv : v ≠ "")
    (hput : sys.put k v = some sys') :
    ∃ sys'', sys'.get k = some (v, sys'') := by
  unfold MultilevelCacheSystem.put at hput
  rw [hchain] at hput
  obtain ⟨lvl₀, hput₀, hsys'⟩ := Option.map_eq_some'.1 hput
  obtain ⟨hlook, polx, hpolx⟩ := put_result_facts lvl k v lvl₀ hput₀
  refine ⟨⟨{lvl₀ with evictionPolicy := some (polx.access k)} :: rest⟩, ?_⟩
  rw [← hsys']
  unfold MultilevelCacheSystem.get
  show (getScan k (lvl₀ :: rest)).map _ = _
  unfold getScan
  rw [get_hit_eq lvl₀ polx k v hlook hpolx]
  simp [hv]

/-- Witness for C9 (amended): one empty LRU level, `put("A", "1")` then
`get("A")` returns `"1"`. -/
theorem put_get_roundtrip_witness :
    (MultilevelCacheSystem.mk [⟨1, [], some (.lru ⟨[]⟩)⟩]).cacheLevels =
      CacheLevel.mk 1 [] (some (.lru ⟨[]⟩)) :: [] ∧
    ("1" : Value) ≠ "" ∧
    (MultilevelCacheSystem.mk [⟨1, [], some (.lru ⟨[]⟩)⟩]).put "A" "1" =
      some (MultilevelCacheSystem.mk [⟨1, [("A", "1")], some (.lru ⟨["A"]⟩)⟩]) ∧
    ∃ sys'', (MultilevelCacheSystem.mk [⟨1, [("A", "1")],
      some (.lru ⟨["A"]⟩)⟩]).get "A" = some ("1", sys'') :=
  ⟨rfl, by decide, by decide,
    put_get_roundtrip (MultilevelCacheSystem.mk [⟨1, [], some (.lru ⟨[]⟩)⟩])
      (CacheLevel.mk 1 [] (some (.lru ⟨[]⟩))) [] "A" "1"
      (MultilevelCacheSystem.mk [⟨1, [("A", "1")], some (.lru ⟨["A"]⟩)⟩])
      rfl (by decide) (by decide)⟩
